import Mathlib

/-!
Verification of the Trajectory / Goal / RegularGoal core of the pursuit
goal-tracking app, shallowly embedded from src/public/pursuit.js.

Numbers (dates in epoch milliseconds and observation values) are modelled
as rationals; JavaScript floating-point special values that the code can
produce (NaN via 0/0 or arithmetic on `undefined`, signed infinities via
division by zero) are modelled explicitly by the `JSNum` type, and
`Trajectory.at`'s `undefined` result on an empty timeseries by `Option`.
-/

/-- One hour in milliseconds, as in the source: `let HOUR = 60 * 60 * 1000`. -/
def HOUR : ℚ := 60 * 60 * 1000

/-- One day in milliseconds, as in the source: `let DAY = 24 * HOUR`. -/
def DAY : ℚ := 24 * HOUR

/-- A point of a trajectory: `{date, value}` in the source. -/
structure Point where
  date : ℚ
  value : ℚ
deriving DecidableEq, Repr

instance : Inhabited Point := ⟨⟨0, 0⟩⟩

/-- The Trajectory invariant: the backing list `_line` is strictly
increasing by date. -/
abbrev SortedLine (l : List Point) : Prop :=
  l.Pairwise (fun a b => a.date < b.date)

namespace Trajectory

/-- `Trajectory.insert(date, value)` from the source.  The backward scan
`while (p > 0 && this._line[p-1].date >= date) --p;` is the length of the
longest suffix of the line whose dates are `>= date` (scanning stops at the
first smaller date), and the `splice` call replaces the point at index `p`
when it carries the same date, else inserts before it. -/
def insert (line : List Point) (d v : ℚ) : List Point :=
  let p := line.length - (line.reverse.takeWhile (fun q => decide (d ≤ q.date))).length
  match line.drop p with
  | [] => line.take p ++ [⟨d, v⟩]
  | q :: qs =>
    if q.date = d then line.take p ++ ⟨d, v⟩ :: qs
    else line.take p ++ ⟨d, v⟩ :: q :: qs

/-- `Trajectory.remove(date)` from the source: deletes the first point with
an exactly matching date, if any. -/
def remove (line : List Point) (d : ℚ) : List Point :=
  match line with
  | [] => []
  | q :: qs => if q.date = d then qs else q :: remove qs d

/-- The index-finding loop of `Trajectory.at` fused with the interpolation
step: `for (i0 = 0; i0 < len - 1 && line[i0+1].date <= date; i0++)` walks
forward while the next point is still at or before `date`, then
interpolates between `line[i0]` and `line[i0+1]`.  The one-point case is
unreachable in `at` (guarded by the extrapolation branches). -/
def interpAt (d : ℚ) : List Point → ℚ
  | [] => 0
  | [p] => p.value
  | p :: q :: rest =>
    if q.date ≤ d then interpAt d (q :: rest)
    else p.value + (d - p.date) * (q.value - p.value) / (q.date - p.date)

/-- `Trajectory.at(date)` from the source: `undefined` (here `none`) on an
empty line, flat extrapolation when `earliest.date >= date` or
`latest.date <= date`, else linear interpolation between the bracketing
adjacent points. -/
def at_ (line : List Point) (d : ℚ) : Option ℚ :=
  match line with
  | [] => none
  | p :: rest =>
    if d ≤ p.date then some p.value
    else
      let last := (p :: rest).getLast (List.cons_ne_nil p rest)
      if last.date ≤ d then some last.value
      else some (interpAt d (p :: rest))

/-- The popping loop of `compactHead`, acting on the reversed tail of the
line (the source pops from the end while `i > 0` and
`head.date - line[i].date <= DAY`, stopping at the first older point). -/
def dropRecent (h : Point) : List Point → List Point
  | [] => []
  | q :: qs => if h.date - q.date ≤ DAY then dropRecent h qs else q :: qs

/-- `Trajectory.compactHead(duration = HOUR)` from the source.  The
`duration` parameter is declared but never read: the backward scan is
guarded by the fixed constant `DAY`.  The result is a list of
`Option Point` because on an empty line `this._line.pop()` yields
`undefined` (here `none`) and the final `splice` pushes that `undefined`
back onto the line. -/
def compactHeadD (duration : ℚ) (line : List Point) : List (Option Point) :=
  match line.getLast?, line.dropLast with
  | none, _ => [none]
  | some h, [] => [some h]
  | some h, r0 :: rtail =>
    some r0 :: ((dropRecent h rtail.reverse).reverse.map some) ++ [some h]

end Trajectory

/-- A JavaScript number as produced by the arithmetic in this program:
either a finite value (idealised as a rational), `NaN`, or a signed
infinity. -/
inductive JSNum where
  | num : ℚ → JSNum
  | nan : JSNum
  | posInf : JSNum
  | negInf : JSNum
deriving DecidableEq, Repr

namespace JSNum

/-- Coercion of a possibly-`undefined` trajectory value into arithmetic:
in JavaScript, `undefined` coerces to `NaN`. -/
def ofOpt : Option ℚ → JSNum
  | some q => num q
  | none => nan

/-- JavaScript subtraction on numbers. -/
def sub : JSNum → JSNum → JSNum
  | num a, num b => num (a - b)
  | nan, _ => nan
  | _, nan => nan
  | posInf, posInf => nan
  | negInf, negInf => nan
  | posInf, _ => posInf
  | negInf, _ => negInf
  | num _, posInf => negInf
  | num _, negInf => posInf

/-- JavaScript division of a number by a finite value `q` (all divisors in
this program are plain numbers): division by zero yields `NaN` for a zero
numerator and a signed infinity otherwise. -/
def divQ : JSNum → ℚ → JSNum
  | num a, q =>
    if q = 0 then (if a = 0 then nan else if 0 < a then posInf else negInf)
    else num (a / q)
  | nan, _ => nan
  | posInf, q => if q < 0 then negInf else posInf
  | negInf, q => if q < 0 then posInf else negInf

/-- JavaScript multiplication by a finite constant `c` (used with the
positive constants `DAY`, `7` and `30`). -/
def mulQ : JSNum → ℚ → JSNum
  | num a, c => num (a * c)
  | nan, _ => nan
  | posInf, c => if c = 0 then nan else if c < 0 then negInf else posInf
  | negInf, c => if c = 0 then nan else if c < 0 then posInf else negInf

/-- The comparison `x >= c` on a JavaScript number: false for `NaN`. -/
def ge (x : JSNum) (c : ℚ) : Bool :=
  match x with
  | num a => decide (c ≤ a)
  | nan => false
  | posInf => true
  | negInf => false

end JSNum

/-- A `Goal` from the source: a fixed window `[start, end]`, a numeric
target, and an owned trajectory (its `_line`); display fields are omitted
as they play no role in the claims. -/
structure Goal where
  start : ℚ
  end_ : ℚ
  target : ℚ
  line : List Point
deriving DecidableEq, Repr

namespace Goal

/-- `Goal.baseline`: `this.trajectory.at(this.start)`. -/
def baseline (g : Goal) : Option ℚ :=
  Trajectory.at_ g.line g.start

/-- `Goal.progress`: `NaN` when the trajectory is empty (`!length`), else
`(latest.value - baseline) / (target - baseline)` under JavaScript
division semantics.  On a nonempty line `latest` is the last point and
`baseline` is always a finite number. -/
def progress (g : Goal) : JSNum :=
  match g.line.getLast?, baseline g with
  | some last, some b => JSNum.divQ (JSNum.num (last.value - b)) (g.target - b)
  | _, _ => JSNum.nan

/-- `Trajectory.velocity(a, b)`: `(at(b) - at(a)) / (b - a)` evaluated on
this goal's trajectory. -/
def velocity (g : Goal) (a b : ℚ) : JSNum :=
  JSNum.divQ (JSNum.sub (JSNum.ofOpt (Trajectory.at_ g.line b))
                        (JSNum.ofOpt (Trajectory.at_ g.line a))) (b - a)

/-- `Goal.velocity30d(by_date)`:
`trajectory.velocity(max(start, by_date - 30 * DAY), by_date)`. -/
def velocity30d (g : Goal) (d : ℚ) : JSNum :=
  velocity g (max g.start (d - 30 * DAY)) d

/-- `Goal.velocityRequired(by_date)`:
`(target - trajectory.at(by_date)) / (end - by_date)`. -/
def velocityRequired (g : Goal) (d : ℚ) : JSNum :=
  JSNum.divQ (JSNum.sub (JSNum.num g.target)
                        (JSNum.ofOpt (Trajectory.at_ g.line d))) (g.end_ - d)

end Goal

/-- A `RegularGoal` from the source: a rolling window length in days, a
target floor, an ideal window delta `total`, and an owned trajectory. -/
structure RegularGoal where
  window : ℚ
  target : ℚ
  total : ℚ
  line : List Point
deriving DecidableEq, Repr

/-- The value of `RegularGoal.partialData`, which returns `NaN` on an
empty trajectory and a boolean otherwise. -/
inductive JSBoolNum where
  | bool : Bool → JSBoolNum
  | nan : JSBoolNum
deriving DecidableEq, Repr

namespace RegularGoal

/-- `RegularGoal.value(by_date)`:
`trajectory.at(by_date) - trajectory.at(by_date - window * DAY)`. -/
def value (g : RegularGoal) (d : ℚ) : JSNum :=
  JSNum.sub (JSNum.ofOpt (Trajectory.at_ g.line d))
            (JSNum.ofOpt (Trajectory.at_ g.line (d - g.window * DAY)))

/-- `RegularGoal.budgetRemaining(by_date)`:
`(value(by_date) - target) / (total - target)`. -/
def budgetRemaining (g : RegularGoal) (d : ℚ) : JSNum :=
  JSNum.divQ (JSNum.sub (value g d) (JSNum.num g.target)) (g.total - g.target)

/-- `RegularGoal.partialData(by_date)`: returns `NaN` when the trajectory
has no earliest point (`!this.trajectory.earliest`, i.e. the line is
empty), else the boolean `earliest.date > by_date - window * DAY`. -/
def partialData (g : RegularGoal) (d : ℚ) : JSBoolNum :=
  match g.line with
  | [] => JSBoolNum.nan
  | p :: _ => JSBoolNum.bool (decide (d - g.window * DAY < p.date))

end RegularGoal

/-- The time unit chosen by `VelocityReport.report` for displaying rates. -/
inductive TimeUnit where
  | day : TimeUnit
  | week : TimeUnit
  | month : TimeUnit
deriving DecidableEq, Repr

/-- The unit-selection policy of `VelocityReport.report(goal, by_date)`:
with `v = goal.velocity30d(by_date) * DAY` and
`rv = goal.velocityRequired(by_date) * DAY`, report per day if
`v >= 1 || rv >= 1`, else per week if `v * 7 >= 1 || rv * 7 >= 1`, else
per month. -/
def velocityReportUnit (g : Goal) (d : ℚ) : TimeUnit :=
  let v := JSNum.mulQ (Goal.velocity30d g d) DAY
  let rv := JSNum.mulQ (Goal.velocityRequired g d) DAY
  if JSNum.ge v 1 || JSNum.ge rv 1 then TimeUnit.day
  else if JSNum.ge (JSNum.mulQ v 7) 1 || JSNum.ge (JSNum.mulQ rv 7) 1 then TimeUnit.week
  else TimeUnit.month


/-! ### Helper lemmas about `Trajectory.insert` -/

namespace Trajectory

/-- On a list whose dates strictly decrease (a reversed trajectory line),
everything left after dropping the leading run of dates `≥ d` has date
strictly below `d`. -/
lemma dates_lt_of_dropWhile (d : ℚ) :
    ∀ l : List Point, l.Pairwise (fun a b => b.date < a.date) →
      ∀ x ∈ l.dropWhile (fun q => decide (d ≤ q.date)), x.date < d := by
  intro l
  induction l with
  | nil => simp
  | cons z zs ih =>
    intro hp x hx
    by_cases hz : d ≤ z.date
    · rw [List.dropWhile_cons_of_pos (by simpa using hz)] at hx
      exact ih (List.pairwise_cons.mp hp).2 x hx
    · rw [List.dropWhile_cons_of_neg (by simpa using hz)] at hx
      rcases List.mem_cons.mp hx with rfl | hx'
      · exact not_le.mp hz
      · exact ((List.pairwise_cons.mp hp).1 x hx').trans (not_le.mp hz)

/-- Splitting a line as the reversed `dropWhile` / `takeWhile` parts of its
reverse. -/
lemma line_split (line : List Point) (d : ℚ) :
    line = (line.reverse.dropWhile (fun q => decide (d ≤ q.date))).reverse ++
      (line.reverse.takeWhile (fun q => decide (d ≤ q.date))).reverse := by
  conv_lhs => rw [← List.reverse_reverse line]
  rw [← List.reverse_append, List.takeWhile_append_dropWhile]

/-- The split index of `insert`'s backward scan equals the length of the
reversed `dropWhile` part. -/
lemma scan_index_eq (line : List Point) (d : ℚ) :
    line.length - (line.reverse.takeWhile (fun q => decide (d ≤ q.date))).length =
      (line.reverse.dropWhile (fun q => decide (d ≤ q.date))).reverse.length := by
  have h2 : line.reverse.length =
      (line.reverse.takeWhile (fun q => decide (d ≤ q.date))).length +
        (line.reverse.dropWhile (fun q => decide (d ≤ q.date))).length := by
    conv_lhs =>
      rw [← List.takeWhile_append_dropWhile
        (p := fun q => decide (d ≤ q.date)) (l := line.reverse)]
    rw [List.length_append]
  simp only [List.length_reverse] at h2 ⊢
  omega

/-- Splitting the line at the scan index yields the reversed `dropWhile`
part as prefix and the reversed `takeWhile` part as suffix. -/
lemma take_drop_scan (line : List Point) (d : ℚ) :
    line.take (line.length -
        (line.reverse.takeWhile (fun q => decide (d ≤ q.date))).length) =
      (line.reverse.dropWhile (fun q => decide (d ≤ q.date))).reverse ∧
    line.drop (line.length -
        (line.reverse.takeWhile (fun q => decide (d ≤ q.date))).length) =
      (line.reverse.takeWhile (fun q => decide (d ≤ q.date))).reverse := by
  have hsum := List.take_append_drop
    (line.length - (line.reverse.takeWhile (fun q => decide (d ≤ q.date))).length) line
  conv_rhs at hsum => rw [line_split line d]
  have hlen : (line.take (line.length -
      (line.reverse.takeWhile (fun q => decide (d ≤ q.date))).length)).length =
      (line.reverse.dropWhile (fun q => decide (d ≤ q.date))).reverse.length := by
    rw [List.length_take, ← scan_index_eq line d]
    exact min_eq_left (Nat.sub_le _ _)
  exact List.append_inj hsum hlen

/-- Canonical form of `insert` on a sorted line: the points strictly below
`d`, then the new point, then the points strictly above `d` (a point at
exactly `d` is replaced). -/
lemma insert_eq_filter (line : List Point) (d v : ℚ) (hs : SortedLine line) :
    insert line d v =
      line.filter (fun q => decide (q.date < d)) ++
        ⟨d, v⟩ :: line.filter (fun q => decide (d < q.date)) := by
  have hsplit := line_split line d
  have hDw : ∀ x ∈ (line.reverse.dropWhile (fun q => decide (d ≤ q.date))).reverse,
      x.date < d := by
    intro x hx
    exact dates_lt_of_dropWhile d line.reverse
      (List.pairwise_reverse.mpr (by simpa using hs)) x (List.mem_reverse.mp hx)
  have hT : ∀ x ∈ (line.reverse.takeWhile (fun q => decide (d ≤ q.date))).reverse,
      d ≤ x.date := by
    intro x hx
    have := List.mem_takeWhile_imp (List.mem_reverse.mp hx)
    simpa using this
  have hfiltlt : line.filter (fun q => decide (q.date < d)) =
      (line.reverse.dropWhile (fun q => decide (d ≤ q.date))).reverse := by
    conv_lhs => rw [hsplit]
    rw [List.filter_append,
        List.filter_eq_self.mpr (fun a ha => by simpa using hDw a ha),
        List.filter_eq_nil_iff.mpr (fun a ha => by simpa using not_lt.mpr (hT a ha))]
    simp
  have hsT : SortedLine (line.reverse.takeWhile (fun q => decide (d ≤ q.date))).reverse := by
    refine List.Pairwise.sublist ?_ hs
    conv_rhs => rw [hsplit]
    exact List.sublist_append_right _ _
  rw [show insert line d v =
      (match line.drop (line.length -
          (line.reverse.takeWhile (fun q => decide (d ≤ q.date))).length) with
        | [] => line.take (line.length -
            (line.reverse.takeWhile (fun q => decide (d ≤ q.date))).length) ++ [⟨d, v⟩]
        | q :: qs =>
          if q.date = d then
            line.take (line.length -
              (line.reverse.takeWhile (fun q => decide (d ≤ q.date))).length) ++ ⟨d, v⟩ :: qs
          else
            line.take (line.length -
              (line.reverse.takeWhile (fun q => decide (d ≤ q.date))).length) ++
                ⟨d, v⟩ :: q :: qs) from rfl]
  rw [(take_drop_scan line d).2, (take_drop_scan line d).1]
  cases hTr : (line.reverse.takeWhile (fun q => decide (d ≤ q.date))).reverse with
  | nil =>
    have hgt : line.filter (fun q => decide (d < q.date)) = [] := by
      conv_lhs => rw [hsplit, hTr]
      rw [List.filter_append,
          List.filter_eq_nil_iff.mpr
            (fun a ha => by simpa using not_lt.mpr (le_of_lt (hDw a ha)))]
      simp
    dsimp only
    rw [hfiltlt, hgt]
  | cons q qs =>
    have hqmem : q ∈ (line.reverse.takeWhile (fun q => decide (d ≤ q.date))).reverse := by
      rw [hTr]; exact List.mem_cons_self q qs
    have hqge : d ≤ q.date := hT q hqmem
    have hqs : ∀ x ∈ qs, q.date < x.date := by
      intro x hx
      have h := hsT
      rw [hTr] at h
      exact (List.pairwise_cons.mp h).1 x hx
    by_cases hqd : q.date = d
    · have hgt : line.filter (fun q => decide (d < q.date)) = qs := by
        conv_lhs => rw [hsplit, hTr]
        rw [List.filter_append,
            List.filter_eq_nil_iff.mpr
              (fun a ha => by simpa using not_lt.mpr (le_of_lt (hDw a ha))),
            List.filter_cons_of_neg (by simp [hqd]),
            List.filter_eq_self.mpr (fun a ha => by simpa using hqd ▸ hqs a ha)]
        simp
      dsimp only
      rw [if_pos hqd, hfiltlt, hgt]
    · have hqgt : d < q.date := lt_of_le_of_ne hqge (fun h => hqd h.symm)
      have hgt : line.filter (fun q => decide (d < q.date)) = q :: qs := by
        conv_lhs => rw [hsplit, hTr]
        rw [List.filter_append,
            List.filter_eq_nil_iff.mpr
              (fun a ha => by simpa using not_lt.mpr (le_of_lt (hDw a ha))),
            List.filter_cons_of_pos (by simpa using hqgt),
            List.filter_eq_self.mpr (fun a ha => by simpa using hqgt.trans (hqs a ha))]
        simp
      dsimp only
      rw [if_neg hqd, hfiltlt, hgt]

end Trajectory

namespace Trajectory

/-- Inserting into a sorted line yields a sorted line. -/
lemma insert_sorted (line : List Point) (d v : ℚ) (hs : SortedLine line) :
    SortedLine (insert line d v) := by
  rw [insert_eq_filter line d v hs]
  refine List.pairwise_append.mpr
    ⟨List.Pairwise.sublist (List.filter_sublist _) hs, ?_, ?_⟩
  · rw [List.pairwise_cons]
    refine ⟨?_, List.Pairwise.sublist (List.filter_sublist _) hs⟩
    intro b hb
    have := List.mem_filter.mp hb
    simpa using this.2
  · intro a ha b hb
    have ha' : a.date < d := by simpa using (List.mem_filter.mp ha).2
    rcases List.mem_cons.mp hb with rfl | hb'
    · exact ha'
    · have hb'' : d < b.date := by simpa using (List.mem_filter.mp hb').2
      exact ha'.trans hb''

end Trajectory

/-- C2: starting from the empty Trajectory, any sequence of
`insert(date, value)` calls, in any order of dates, produces a point list
that is strictly increasing by date (sorted ascending with no duplicate
dates). -/
theorem insert_any_order_sorted (ops : List (ℚ × ℚ)) :
    SortedLine (ops.foldl (fun l pr => Trajectory.insert l pr.1 pr.2) []) := by
  have aux : ∀ (ops : List (ℚ × ℚ)) (l : List Point), SortedLine l →
      SortedLine (ops.foldl (fun l pr => Trajectory.insert l pr.1 pr.2) l) := by
    intro ops
    induction ops with
    | nil => intro l hl; simpa using hl
    | cons op rest ih =>
      intro l hl
      exact ih _ (Trajectory.insert_sorted l op.1 op.2 hl)
  exact aux ops [] List.Pairwise.nil

/-- C8: inserting a point at date `d` and then inserting a second point at
the same `d` leaves the trajectory with its length unchanged by the second
insert, with exactly one point at date `d`, namely the second inserted
value. -/
theorem insert_same_date_replaces (line : List Point) (d v1 v2 : ℚ)
    (hs : SortedLine line) :
    (Trajectory.insert (Trajectory.insert line d v1) d v2).length =
        (Trajectory.insert line d v1).length ∧
    (Trajectory.insert (Trajectory.insert line d v1) d v2).countP
        (fun q => decide (q.date = d)) = 1 ∧
    Point.mk d v2 ∈ Trajectory.insert (Trajectory.insert line d v1) d v2 ∧
    ∀ q ∈ Trajectory.insert (Trajectory.insert line d v1) d v2,
      q.date = d → q = ⟨d, v2⟩ := by
  have hs1 : SortedLine (Trajectory.insert line d v1) :=
    Trajectory.insert_sorted line d v1 hs
  have h1 := Trajectory.insert_eq_filter line d v1 hs
  have h2 := Trajectory.insert_eq_filter (Trajectory.insert line d v1) d v2 hs1
  have hA : (line.filter (fun q => decide (q.date < d))).filter
      (fun q => decide (q.date < d)) = line.filter (fun q => decide (q.date < d)) :=
    List.filter_eq_self.mpr (fun a ha => (List.mem_filter.mp ha).2)
  have hB : (line.filter (fun q => decide (d < q.date))).filter
      (fun q => decide (d < q.date)) = line.filter (fun q => decide (d < q.date)) :=
    List.filter_eq_self.mpr (fun a ha => (List.mem_filter.mp ha).2)
  have hBnil : (line.filter (fun q => decide (d < q.date))).filter
      (fun q => decide (q.date < d)) = [] :=
    List.filter_eq_nil_iff.mpr (fun a ha => by
      have hgt : d < a.date := by simpa using (List.mem_filter.mp ha).2
      simpa using not_lt.mpr hgt.le)
  have hAnil : (line.filter (fun q => decide (q.date < d))).filter
      (fun q => decide (d < q.date)) = [] :=
    List.filter_eq_nil_iff.mpr (fun a ha => by
      have hlt' : a.date < d := by simpa using (List.mem_filter.mp ha).2
      simpa using not_lt.mpr hlt'.le)
  have hlt : (Trajectory.insert line d v1).filter (fun q => decide (q.date < d)) =
      line.filter (fun q => decide (q.date < d)) := by
    rw [h1, List.filter_append, List.filter_cons_of_neg (by simp), hA, hBnil]
    simp
  have hgt : (Trajectory.insert line d v1).filter (fun q => decide (d < q.date)) =
      line.filter (fun q => decide (d < q.date)) := by
    rw [h1, List.filter_append, List.filter_cons_of_neg (by simp), hAnil, hB]
    simp
  rw [h2, hlt, hgt, h1]
  have hAzero : (line.filter (fun q => decide (q.date < d))).countP
      (fun q => decide (q.date = d)) = 0 :=
    List.countP_eq_zero.mpr (fun a ha => by
      have : a.date < d := by simpa using (List.mem_filter.mp ha).2
      simpa using ne_of_lt this)
  have hBzero : (line.filter (fun q => decide (d < q.date))).countP
      (fun q => decide (q.date = d)) = 0 :=
    List.countP_eq_zero.mpr (fun a ha => by
      have : d < a.date := by simpa using (List.mem_filter.mp ha).2
      simpa using (ne_of_lt this).symm)
  refine ⟨by simp, ?_, ?_, ?_⟩
  · rw [List.countP_append, List.countP_cons, hAzero, hBzero]
    simp
  · exact List.mem_append_right _ (List.mem_cons_self _ _)
  · intro q hq hqd
    rcases List.mem_append.mp hq with hqa | hqb
    · have : q.date < d := by simpa using (List.mem_filter.mp hqa).2
      exact absurd hqd (ne_of_lt this)
    · rcases List.mem_cons.mp hqb with rfl | hqb'
      · rfl
      · have : d < q.date := by simpa using (List.mem_filter.mp hqb').2
        exact absurd hqd.symm (ne_of_lt this)

/-- Witness for C8 at a concrete input: the sorted line
`[(0,1), (10,2)]` with two inserts at date 5. -/
theorem insert_same_date_replaces_witness :
    SortedLine [⟨0,1⟩, ⟨10,2⟩] ∧
    ((Trajectory.insert (Trajectory.insert [⟨0,1⟩, ⟨10,2⟩] 5 3) 5 4).length =
        (Trajectory.insert [⟨0,1⟩, ⟨10,2⟩] 5 3).length ∧
    (Trajectory.insert (Trajectory.insert [⟨0,1⟩, ⟨10,2⟩] 5 3) 5 4).countP
        (fun q => decide (q.date = 5)) = 1 ∧
    Point.mk 5 4 ∈ Trajectory.insert (Trajectory.insert [⟨0,1⟩, ⟨10,2⟩] 5 3) 5 4 ∧
    ∀ q ∈ Trajectory.insert (Trajectory.insert [⟨0,1⟩, ⟨10,2⟩] 5 3) 5 4,
      q.date = 5 → q = ⟨5, 4⟩) :=
  ⟨by decide, insert_same_date_replaces [⟨0,1⟩, ⟨10,2⟩] 5 3 4 (by decide)⟩

/-! ### Helper lemmas about `Trajectory.at_` -/

namespace Trajectory

/-- In a sorted line the head's date is at most the last point's date. -/
lemma sorted_head_le_getLast (x : Point) (xs : List Point)
    (hs : SortedLine (x :: xs)) :
    x.date ≤ ((x :: xs).getLast (List.cons_ne_nil x xs)).date := by
  have hmem := List.getLast_mem (List.cons_ne_nil x xs)
  rcases List.mem_cons.mp hmem with h | h
  · rw [h]
  · exact le_of_lt ((List.pairwise_cons.mp hs).1 _ h)

/-- In a sorted line decomposed around two adjacent points `p, q`, the last
point's date is at least `q.date`. -/
lemma sorted_getLast_ge (A : List Point) (p q : Point) (B : List Point)
    (hs : SortedLine (A ++ p :: q :: B)) :
    q.date ≤ ((A ++ p :: q :: B).getLast (by simp)).date := by
  rw [List.getLast_append' A (p :: q :: B) (List.cons_ne_nil p _),
      List.getLast_cons (List.cons_ne_nil q B)]
  refine sorted_head_le_getLast q B ?_
  have hsub : (q :: B).Sublist (A ++ p :: q :: B) := by
    refine List.Sublist.trans ?_ (List.sublist_append_right A (p :: q :: B))
    exact (List.sublist_cons_self p (q :: B))
  exact List.Pairwise.sublist hsub hs

/-- The forward scan of `at` interpolates between the adjacent points
bracketing the query date. -/
lemma interpAt_adj (d : ℚ) :
    ∀ (A : List Point) (p q : Point) (B : List Point),
      SortedLine (A ++ p :: q :: B) → p.date ≤ d → d < q.date →
      interpAt d (A ++ p :: q :: B) =
        p.value + (d - p.date) * (q.value - p.value) / (q.date - p.date) := by
  intro A
  induction A with
  | nil =>
    intro p q B _ h1 h2
    simp only [List.nil_append, interpAt]
    rw [if_neg (not_le.mpr h2)]
  | cons a A' ih =>
    intro p q B hs h1 h2
    have hsTail : SortedLine (A' ++ p :: q :: B) := by
      rw [List.cons_append] at hs
      exact hs.of_cons
    cases hA' : A' with
    | nil =>
      subst hA'
      simp only [List.cons_append, List.nil_append, interpAt]
      rw [if_pos h1, if_neg (not_le.mpr h2)]
    | cons b A'' =>
      subst hA'
      have hbp : b.date < p.date := by
        rw [List.cons_append, List.cons_append] at hs
        have hmemp : p ∈ A'' ++ p :: q :: B :=
          List.mem_append_right _ (List.mem_cons_self _ _)
        exact (List.pairwise_cons.mp hs.of_cons).1 p hmemp
      have hbd : b.date ≤ d := le_of_lt (lt_of_lt_of_le hbp h1)
      simp only [List.cons_append, interpAt]
      rw [if_pos hbd]
      have := ih p q B hsTail h1 h2
      rw [List.cons_append] at this
      exact this

/-- `at` on a sorted line decomposed around two adjacent points bracketing
the query date returns the linear interpolation between them. -/
lemma at_adj (d : ℚ) (A : List Point) (p q : Point) (B : List Point)
    (hs : SortedLine (A ++ p :: q :: B)) (h1 : p.date ≤ d) (h2 : d < q.date) :
    at_ (A ++ p :: q :: B) d =
      some (p.value + (d - p.date) * (q.value - p.value) / (q.date - p.date)) := by
  have hlast := sorted_getLast_ge A p q B hs
  cases A with
  | nil =>
    simp only [List.nil_append] at hlast ⊢
    by_cases hdp : d ≤ p.date
    · have hd : d = p.date := le_antisymm hdp h1
      simp only [at_, if_pos hdp]
      rw [hd]
      simp
    · simp only [at_]
      rw [if_neg hdp, if_neg (not_le.mpr (lt_of_lt_of_le h2 hlast))]
      have h := interpAt_adj d [] p q B (by simpa using hs) h1 h2
      rw [List.nil_append] at h
      exact congrArg some h
  | cons a A' =>
    have hap : a.date < p.date := by
      have hmemp : p ∈ A' ++ p :: q :: B :=
        List.mem_append_right _ (List.mem_cons_self _ _)
      exact (List.pairwise_cons.mp hs).1 p hmemp
    have hda : ¬ d ≤ a.date := not_le.mpr (lt_of_lt_of_le hap h1)
    rw [List.cons_append]
    simp only [at_]
    rw [if_neg hda]
    have hlast2 : ¬ ((a :: (A' ++ p :: q :: B)).getLast (List.cons_ne_nil _ _)).date ≤ d :=
      not_le.mpr (lt_of_lt_of_le h2 hlast)
    rw [if_neg hlast2]
    exact congrArg some (interpAt_adj d (a :: A') p q B hs h1 h2)

end Trajectory

namespace Trajectory

/-- `at` on a sorted line whose last date is at most the query date
returns the last point's value (flat right extrapolation). -/
lemma at_getLast (line : List Point) (d : ℚ) (hs : SortedLine line)
    (h : line ≠ []) (hle : (line.getLast h).date ≤ d) :
    at_ line d = some (line.getLast h).value := by
  cases line with
  | nil => exact absurd rfl h
  | cons x rest =>
    by_cases hdx : d ≤ x.date
    · have hxle := sorted_head_le_getLast x rest hs
      have hEq : ((x :: rest).getLast (List.cons_ne_nil x rest)).date = x.date :=
        le_antisymm (le_trans hle hdx) hxle
      cases rest with
      | nil => simp only [at_, if_pos hdx]; rfl
      | cons y ys =>
        exfalso
        have hmem : (y :: ys).getLast (List.cons_ne_nil y ys) ∈ y :: ys :=
          List.getLast_mem _
        have hlt : x.date < ((y :: ys).getLast (List.cons_ne_nil y ys)).date :=
          (List.pairwise_cons.mp hs).1 _ hmem
        have hgl : (x :: y :: ys).getLast (List.cons_ne_nil _ _) =
            (y :: ys).getLast (List.cons_ne_nil y ys) :=
          List.getLast_cons _
        rw [hgl] at hEq
        exact (ne_of_gt hlt) hEq
    · simp only [at_]
      rw [if_neg hdx]
      have hle2 : ((x :: rest).getLast (List.cons_ne_nil x rest)).date ≤ d := hle
      rw [if_pos hle2]

end Trajectory

/-- C1: the point-query policy of `Trajectory.at(date)` on a sorted line:
undefined on an empty trajectory; the earliest value for dates at or
before the earliest point; the latest value for dates at or after the
latest point; the linear interpolation
`m0 + (date - t0) * (m2 - m0) / (t2 - t0)` between adjacent stored points
`(t0, m0)`, `(t2, m2)` with `t0 <= date < t2`; and in particular `at(t)`
at a stored point's date returns that point's value exactly. -/
theorem trajectory_at_policy (line : List Point) (d : ℚ) (hs : SortedLine line) :
    (line = [] → Trajectory.at_ line d = none) ∧
    (∀ p rest, line = p :: rest → d ≤ p.date → Trajectory.at_ line d = some p.value) ∧
    (∀ h : line ≠ [], (line.getLast h).date ≤ d →
      Trajectory.at_ line d = some (line.getLast h).value) ∧
    (∀ A p q B, line = A ++ p :: q :: B → p.date ≤ d → d < q.date →
      Trajectory.at_ line d =
        some (p.value + (d - p.date) * (q.value - p.value) / (q.date - p.date))) ∧
    (∀ p ∈ line, Trajectory.at_ line p.date = some p.value) := by
  refine ⟨?_, ?_, ?_, ?_, ?_⟩
  · intro h; subst h; rfl
  · intro p rest hl hd; subst hl; simp only [Trajectory.at_, if_pos hd]
  · intro h hle; exact Trajectory.at_getLast line d hs h hle
  · intro A p q B hl h1 h2; subst hl; exact Trajectory.at_adj d A p q B hs h1 h2
  · intro p hp
    obtain ⟨S, T, hST⟩ := List.append_of_mem hp
    cases T with
    | nil =>
      subst hST
      have hgl := List.getLast_concat (a := p) S
      have h5 := Trajectory.at_getLast (S ++ [p]) p.date hs (by simp)
        (le_of_eq (congrArg Point.date hgl))
      exact h5.trans (congrArg some (congrArg Point.value hgl))
    | cons q T' =>
      subst hST
      have hpq : p.date < q.date := by
        have hsub : (p :: q :: T').Sublist (S ++ p :: q :: T') :=
          List.sublist_append_right S _
        exact (List.pairwise_cons.mp (List.Pairwise.sublist hsub hs)).1 q
          (List.mem_cons_self q T')
      have h4 := Trajectory.at_adj p.date S p q T' hs (le_refl p.date) hpq
      rw [h4]
      congr 1
      simp

/-- Witness for C1 at concrete inputs: interpolation at date 1 between
`(0,0)` and `(4,100)` gives 25, right extrapolation at 4 gives 100, left
extrapolation at -1 gives 0, the empty trajectory gives no value, and the
query at the stored date 0 returns the stored value exactly. -/
theorem trajectory_at_policy_witness :
    Trajectory.at_ [⟨0,0⟩, ⟨4,100⟩] 1 = some 25 ∧
    Trajectory.at_ [⟨0,0⟩, ⟨4,100⟩] 4 = some 100 ∧
    Trajectory.at_ [⟨0,0⟩, ⟨4,100⟩] (-1) = some 0 ∧
    Trajectory.at_ ([] : List Point) 1 = none ∧
    Trajectory.at_ [⟨0,0⟩, ⟨4,100⟩] 0 = some 0 := by
  refine ⟨?_, ?_, ?_, ?_, ?_⟩
  · have h := (trajectory_at_policy [⟨0,0⟩, ⟨4,100⟩] 1 (by decide)).2.2.2.1
      [] ⟨0,0⟩ ⟨4,100⟩ [] rfl (by norm_num) (by norm_num)
    rw [h]
    norm_num
  · have h := (trajectory_at_policy [⟨0,0⟩, ⟨4,100⟩] 4 (by decide)).2.2.1
      (by simp) (by decide)
    simpa using h
  · have h := (trajectory_at_policy [⟨0,0⟩, ⟨4,100⟩] (-1) (by decide)).2.1
      ⟨0,0⟩ [⟨4,100⟩] rfl (by norm_num)
    simpa using h
  · exact (trajectory_at_policy ([] : List Point) 1 (by decide)).1 rfl
  · have h := (trajectory_at_policy [⟨0,0⟩, ⟨4,100⟩] 1 (by decide)).2.2.2.2
      ⟨0,0⟩ (by simp)
    simpa using h

/-! ### compactHead -/

namespace Trajectory

/-- Unfolding `compactHead` on a line with at least two points: the first
point is kept, the popped head is re-appended, and the scan prunes the
remaining tail. -/
lemma compactHeadD_cons_cons (duration : ℚ) (p r : Point) (rs : List Point) :
    compactHeadD duration (p :: r :: rs) =
      some p :: ((dropRecent ((p :: r :: rs).getLast (List.cons_ne_nil _ _))
          ((r :: rs).dropLast.reverse)).reverse.map some) ++
        [some ((p :: r :: rs).getLast (List.cons_ne_nil _ _))] := by
  simp only [compactHeadD]
  rw [List.getLast?_eq_getLast _ (List.cons_ne_nil _ _), List.dropLast_cons₂]

end Trajectory

/-- C4 (code defect at the empty boundary): `compactHead` on a trajectory
with a single point is a no-op, but on an empty trajectory it pops
`undefined` and pushes it back, leaving a line of length 1 whose sole
entry is not a point — the trajectory is not left unchanged. -/
theorem compactHead_small_line :
    Trajectory.compactHeadD HOUR ([] : List Point) = [none] ∧
    (Trajectory.compactHeadD HOUR ([] : List Point)).length = 1 ∧
    Trajectory.compactHeadD HOUR [⟨5,7⟩] = [some ⟨5,7⟩] :=
  ⟨rfl, rfl, rfl⟩

/-- C3 (code defect): `compactHead(duration)` ignores its `duration`
argument and prunes with the fixed one-day window instead.  With
`duration = HOUR`, the intermediate point at `2 * HOUR` is not within one
hour of the latest point at `26 * HOUR`, yet it is removed because it is
within one day of it. -/
theorem compactHead_ignores_duration :
    Trajectory.compactHeadD HOUR [⟨0,0⟩, ⟨2*HOUR,5⟩, ⟨26*HOUR,9⟩] =
      [some ⟨0,0⟩, some ⟨26*HOUR,9⟩] ∧
    ¬ ((26*HOUR : ℚ) - 2*HOUR ≤ HOUR) := by
  constructor
  · norm_num [Trajectory.compactHeadD, Trajectory.dropRecent, HOUR, DAY]
  · norm_num [HOUR]

/-- C5: on a (sorted) trajectory with at least two points, `compactHead`
keeps the original earliest point (the head of the line, which the pruning
loop never pops thanks to its `i > 0` guard) and the original latest point
(popped first and re-appended), whatever the duration argument. -/
theorem compactHead_preserves_endpoints (duration : ℚ) (p : Point)
    (rest : List Point) (hs : SortedLine (p :: rest)) (hne : rest ≠ []) :
    some p ∈ Trajectory.compactHeadD duration (p :: rest) ∧
    some ((p :: rest).getLast (List.cons_ne_nil p rest)) ∈
      Trajectory.compactHeadD duration (p :: rest) := by
  cases rest with
  | nil => exact absurd rfl hne
  | cons r rs =>
    rw [Trajectory.compactHeadD_cons_cons]
    constructor
    · exact List.mem_append_left _ (List.mem_cons_self _ _)
    · exact List.mem_append_right _ (List.mem_singleton.mpr rfl)

/-- Witness for C5 at a concrete input: the sorted 3-point line
`[(0,0), (1,1), (2,2)]`. -/
theorem compactHead_preserves_endpoints_witness :
    SortedLine [⟨0,0⟩, ⟨1,1⟩, ⟨2,2⟩] ∧ ([⟨1,1⟩, ⟨2,2⟩] : List Point) ≠ [] ∧
    (some (⟨0,0⟩ : Point) ∈ Trajectory.compactHeadD HOUR [⟨0,0⟩, ⟨1,1⟩, ⟨2,2⟩] ∧
    some (([⟨0,0⟩, ⟨1,1⟩, ⟨2,2⟩] : List Point).getLast (List.cons_ne_nil _ _)) ∈
      Trajectory.compactHeadD HOUR [⟨0,0⟩, ⟨1,1⟩, ⟨2,2⟩]) :=
  ⟨by decide, by decide,
    compactHead_preserves_endpoints HOUR ⟨0,0⟩ [⟨1,1⟩, ⟨2,2⟩] (by decide) (by decide)⟩

/-! ### RegularGoal budget and partial data -/

/-- C6: for a RegularGoal with window 10 days, target 7.5 and total 10,
whenever the trajectory realizes a delta `value(by_date)` over the
trailing window, `budgetRemaining(by_date) = (value - target) / (total -
target)`: a delta of 10 gives budget 1, a delta of 8 gives budget 1/5,
and a delta of 7.5 gives budget 0. -/
theorem regular_budget_boundaries (line : List Point) (d : ℚ) :
    (RegularGoal.value ⟨10, 15/2, 10, line⟩ d = JSNum.num 10 →
      RegularGoal.budgetRemaining ⟨10, 15/2, 10, line⟩ d = JSNum.num 1) ∧
    (RegularGoal.value ⟨10, 15/2, 10, line⟩ d = JSNum.num 8 →
      RegularGoal.budgetRemaining ⟨10, 15/2, 10, line⟩ d = JSNum.num (1/5)) ∧
    (RegularGoal.value ⟨10, 15/2, 10, line⟩ d = JSNum.num (15/2) →
      RegularGoal.budgetRemaining ⟨10, 15/2, 10, line⟩ d = JSNum.num 0) := by
  refine ⟨?_, ?_, ?_⟩ <;> intro h <;>
    · simp only [RegularGoal.budgetRemaining, h]
      norm_num [JSNum.sub, JSNum.divQ]

/-- Witness for C6 at concrete inputs: two-point trajectories realizing
deltas of exactly 10, 8 and 7.5 over the ten-day window ending at day 10. -/
theorem regular_budget_boundaries_witness :
    RegularGoal.budgetRemaining ⟨10, 15/2, 10, [⟨0,0⟩, ⟨10*DAY,10⟩]⟩ (10*DAY) =
      JSNum.num 1 ∧
    RegularGoal.budgetRemaining ⟨10, 15/2, 10, [⟨0,0⟩, ⟨10*DAY,8⟩]⟩ (10*DAY) =
      JSNum.num (1/5) ∧
    RegularGoal.budgetRemaining ⟨10, 15/2, 10, [⟨0,0⟩, ⟨10*DAY,15/2⟩]⟩ (10*DAY) =
      JSNum.num 0 :=
  ⟨(regular_budget_boundaries [⟨0,0⟩, ⟨10*DAY,10⟩] (10*DAY)).1
      (by norm_num [RegularGoal.value, Trajectory.at_, Trajectory.interpAt,
        List.getLast, JSNum.ofOpt, JSNum.sub, DAY, HOUR]),
   (regular_budget_boundaries [⟨0,0⟩, ⟨10*DAY,8⟩] (10*DAY)).2.1
      (by norm_num [RegularGoal.value, Trajectory.at_, Trajectory.interpAt,
        List.getLast, JSNum.ofOpt, JSNum.sub, DAY, HOUR]),
   (regular_budget_boundaries [⟨0,0⟩, ⟨10*DAY,15/2⟩] (10*DAY)).2.2
      (by norm_num [RegularGoal.value, Trajectory.at_, Trajectory.interpAt,
        List.getLast, JSNum.ofOpt, JSNum.sub, DAY, HOUR])⟩

/-- C10: `RegularGoal.partialData(by_date)` on a goal whose trajectory has
zero points returns `NaN`, which is not a boolean. -/
theorem partial_data_nan_on_empty (w t tot d : ℚ) :
    RegularGoal.partialData ⟨w, t, tot, []⟩ d = JSBoolNum.nan ∧
    ∀ b : Bool, RegularGoal.partialData ⟨w, t, tot, []⟩ d ≠ JSBoolNum.bool b := by
  refine ⟨rfl, ?_⟩
  intro b h
  simp [RegularGoal.partialData] at h

/-! ### Goal.progress -/

/-- C7 counterexample: a goal with a single point `(0,5)`, start 0 and
target 5 has a nonempty trajectory, yet `progress` evaluates `0 / 0` and
returns `NaN` — so `NaN` is not returned only for empty trajectories. -/
theorem goal_progress_nan_on_nonempty :
    Goal.progress ⟨0, 1, 5, [⟨0,5⟩]⟩ = JSNum.nan ∧
    (Goal.mk 0 1 5 [⟨0,5⟩]).line.length ≠ 0 := by
  constructor
  · norm_num [Goal.progress, Goal.baseline, Trajectory.at_, JSNum.divQ]
  · simp

/-- C7 amended: `progress` returns `NaN` when the trajectory is empty;
on a nonempty trajectory with last point `last` and baseline `b` it
returns `(last.value - b) / (target - b)` under IEEE-style division:
the finite quotient when `target ≠ b`, `NaN` when `target = b` and
`last.value = b`, and a signed infinity when `target = b` but
`last.value ≠ b`.  No case throws. -/
theorem goal_progress_amended (g : Goal) :
    (g.line = [] → Goal.progress g = JSNum.nan) ∧
    (∀ last b, g.line.getLast? = some last → Goal.baseline g = some b →
      ((g.target ≠ b →
          Goal.progress g = JSNum.num ((last.value - b) / (g.target - b))) ∧
       (g.target = b → last.value = b → Goal.progress g = JSNum.nan) ∧
       (g.target = b → b < last.value → Goal.progress g = JSNum.posInf) ∧
       (g.target = b → last.value < b → Goal.progress g = JSNum.negInf))) := by
  constructor
  · intro h
    have h1 : g.line.getLast? = none := by rw [h]; rfl
    simp [Goal.progress, h1]
  · intro last b hlast hb
    have hprog : Goal.progress g =
        JSNum.divQ (JSNum.num (last.value - b)) (g.target - b) := by
      simp only [Goal.progress, hlast, hb]
    refine ⟨?_, ?_, ?_, ?_⟩
    · intro hne
      rw [hprog]
      simp only [JSNum.divQ]
      rw [if_neg (sub_ne_zero.mpr hne)]
    · intro ht hv
      rw [hprog]
      simp [JSNum.divQ, ht, hv]
    · intro ht hv
      rw [hprog]
      simp only [JSNum.divQ]
      rw [if_pos (by rw [ht]; exact sub_self b),
          if_neg (sub_ne_zero.mpr (ne_of_gt hv)),
          if_pos (sub_pos.mpr hv)]
    · intro ht hv
      rw [hprog]
      simp only [JSNum.divQ]
      rw [if_pos (by rw [ht]; exact sub_self b),
          if_neg (sub_ne_zero.mpr (ne_of_lt hv)),
          if_neg (not_lt.mpr (sub_nonpos.mpr hv.le))]

/-- Witness for C7's amended statement: one concrete goal per branch —
empty trajectory, finite quotient, 0/0 `NaN`, and the two infinities. -/
theorem goal_progress_amended_witness :
    Goal.progress ⟨0, 1, 5, ([] : List Point)⟩ = JSNum.nan ∧
    Goal.progress ⟨0, 1, 7, [⟨0,5⟩]⟩ = JSNum.num ((5 - 5) / (7 - 5)) ∧
    Goal.progress ⟨0, 1, 5, [⟨0,5⟩]⟩ = JSNum.nan ∧
    Goal.progress ⟨0, 1, 5, [⟨0,5⟩, ⟨10,9⟩]⟩ = JSNum.posInf ∧
    Goal.progress ⟨0, 1, 5, [⟨0,5⟩, ⟨10,1⟩]⟩ = JSNum.negInf := by
  refine ⟨?_, ?_, ?_, ?_, ?_⟩
  · exact (goal_progress_amended ⟨0, 1, 5, ([] : List Point)⟩).1 rfl
  · exact (((goal_progress_amended ⟨0, 1, 7, [⟨0,5⟩]⟩).2 ⟨0,5⟩ 5 rfl
      (by norm_num [Goal.baseline, Trajectory.at_])).1 (by norm_num))
  · exact (((goal_progress_amended ⟨0, 1, 5, [⟨0,5⟩]⟩).2 ⟨0,5⟩ 5 rfl
      (by norm_num [Goal.baseline, Trajectory.at_])).2.1 rfl rfl)
  · exact (((goal_progress_amended ⟨0, 1, 5, [⟨0,5⟩, ⟨10,9⟩]⟩).2 ⟨10,9⟩ 5 rfl
      (by norm_num [Goal.baseline, Trajectory.at_])).2.2.1 rfl (by norm_num))
  · exact (((goal_progress_amended ⟨0, 1, 5, [⟨0,5⟩, ⟨10,1⟩]⟩).2 ⟨10,1⟩ 5 rfl
      (by norm_num [Goal.baseline, Trajectory.at_])).2.2.2 rfl (by norm_num))

/-! ### VelocityReport -/

/-- C9 counterexample: a declining goal whose 30-day velocity is
-10/3 units per day (magnitude well above 1) is reported per month, not
per day — the unit selection compares the signed rates with 1, not their
magnitudes. -/
theorem velocity_report_signed_cex :
    velocityReportUnit ⟨0, 60*DAY, -10, [⟨0,100⟩, ⟨30*DAY,0⟩]⟩ (30*DAY) =
      TimeUnit.month ∧
    JSNum.mulQ (Goal.velocity30d ⟨0, 60*DAY, -10, [⟨0,100⟩, ⟨30*DAY,0⟩]⟩ (30*DAY))
      DAY = JSNum.num (-10/3) ∧
    (1 : ℚ) ≤ |(-10/3 : ℚ)| := by
  refine ⟨?_, ?_, by rw [abs_of_neg (by norm_num : (-10/3 : ℚ) < 0)]; norm_num⟩
  · norm_num [velocityReportUnit, Goal.velocity30d, Goal.velocity,
      Goal.velocityRequired, Trajectory.at_, Trajectory.interpAt, List.getLast,
      JSNum.ofOpt, JSNum.sub, JSNum.divQ, JSNum.mulQ, JSNum.ge, DAY, HOUR]
  · norm_num [Goal.velocity30d, Goal.velocity, Trajectory.at_,
      Trajectory.interpAt, List.getLast, JSNum.ofOpt, JSNum.sub, JSNum.divQ,
      JSNum.mulQ, DAY, HOUR]

/-- C9 amended: with finite per-day rates `v = velocity30d * DAY` and
`rv = velocityRequired * DAY`, the report picks the day unit iff `v >= 1`
or `rv >= 1` (signed comparison, not magnitude), else the week unit iff
`v * 7 >= 1` or `rv * 7 >= 1`, else the month unit. -/
theorem velocity_report_unit_amended (g : Goal) (d v rv : ℚ)
    (hv : JSNum.mulQ (Goal.velocity30d g d) DAY = JSNum.num v)
    (hrv : JSNum.mulQ (Goal.velocityRequired g d) DAY = JSNum.num rv) :
    (velocityReportUnit g d = TimeUnit.day ↔ (1 ≤ v ∨ 1 ≤ rv)) ∧
    (velocityReportUnit g d = TimeUnit.week ↔
      (¬(1 ≤ v ∨ 1 ≤ rv) ∧ (1 ≤ v * 7 ∨ 1 ≤ rv * 7))) ∧
    (velocityReportUnit g d = TimeUnit.month ↔
      (¬(1 ≤ v ∨ 1 ≤ rv) ∧ ¬(1 ≤ v * 7 ∨ 1 ≤ rv * 7))) := by
  simp only [velocityReportUnit, hv, hrv]
  simp only [JSNum.mulQ, JSNum.ge, Bool.or_eq_true, decide_eq_true_eq]
  split_ifs with h1 h2 <;> simp_all

/-- Witness for C9's amended statement: a goal progressing at 3 units per
day against a required 1/3 units per day is reported per day. -/
theorem velocity_report_unit_amended_witness :
    velocityReportUnit ⟨0, 60*DAY, 100, [⟨0,0⟩, ⟨30*DAY,90⟩]⟩ (30*DAY) =
      TimeUnit.day := by
  have h := velocity_report_unit_amended ⟨0, 60*DAY, 100, [⟨0,0⟩, ⟨30*DAY,90⟩]⟩
    (30*DAY) 3 (1/3)
    (by norm_num [Goal.velocity30d, Goal.velocity, Trajectory.at_,
      Trajectory.interpAt, List.getLast, JSNum.ofOpt, JSNum.sub, JSNum.divQ,
      JSNum.mulQ, DAY, HOUR])
    (by norm_num [Goal.velocityRequired, Trajectory.at_, Trajectory.interpAt,
      List.getLast, JSNum.ofOpt, JSNum.sub, JSNum.divQ, JSNum.mulQ, DAY, HOUR])
  exact h.1.mpr (Or.inl (by norm_num))
